import Mathlib

/-!
Verification development for the `lightly` self-supervised-learning library.

The embedded code is `lightly/loss/swav_loss.py` (the `sinkhorn` routine and
the `SwaVLoss` module) and `lightly/transforms/gaussian_blur.py`.  Tensor
arithmetic is modelled in exact real arithmetic: a similarity matrix
`out` with `n` samples (rows) and `K` prototypes (columns) is a function
`Fin n → Fin K → ℝ`, and `torch` reductions become `Finset` sums.
-/

namespace Lightly

noncomputable section

/-- Sum along `dim=1` of the (prototype × sample) matrix `Q`, i.e. the
vector `torch.sum(Q, dim=1, keepdim=True)` of row sums in `sinkhorn`. -/
def rowSums {n K : ℕ} (Q : Fin K → Fin n → ℝ) : Fin K → ℝ :=
  fun k => ∑ i, Q k i

/-- Sum along `dim=0` of the (prototype × sample) matrix `Q`, i.e. the
vector `torch.sum(Q, dim=0, keepdim=True)` of column sums in `sinkhorn`. -/
def colSums {n K : ℕ} (Q : Fin K → Fin n → ℝ) : Fin n → ℝ :=
  fun i => ∑ k, Q k i

/-- One iteration of the `sinkhorn` loop in the single-device
(`world_size = 1`) path: `Q /= sum_of_rows`, then `Q /= colsums` and
`Q /= B`. -/
def sinkhornStep {n K : ℕ} (B : ℝ) (Q : Fin K → Fin n → ℝ) : Fin K → Fin n → ℝ :=
  let Q1 : Fin K → Fin n → ℝ := fun k i => Q k i / rowSums Q k
  fun k i => Q1 k i / colSums Q1 i / B

/-- Embedding of `sinkhorn(out, iterations, epsilon, gather_distributed=False)`
from `lightly/loss/swav_loss.py` (the single-device path, `world_size = 1`):
`Q = exp(out / epsilon).t()`, `Q /= sum_Q`, `B = Q.shape[1] * 1`, the
iteration loop, `Q *= B`, and the final transpose `Q.t()`. -/
def sinkhorn {n K : ℕ} (out : Fin n → Fin K → ℝ) (iterations : ℕ) (ε : ℝ) :
    Fin n → Fin K → ℝ :=
  let Q : Fin K → Fin n → ℝ := fun k i => Real.exp (out i k / ε)
  let sumQ : ℝ := ∑ k, ∑ i, Q k i
  let Qn : Fin K → Fin n → ℝ := fun k i => Q k i / sumQ
  let B : ℝ := n
  fun i k => (sinkhornStep B)^[iterations] Qn k i * B

/-- State of the `torch.distributed` module as observed by `sinkhorn`:
whether `dist.is_initialized()` holds, the reported `dist.get_world_size()`,
and the effect of `dist.all_reduce` on the scalar `sum_Q` and on the
`sum_of_rows` vector. -/
structure DistEnv (K : ℕ) where
  isInitialized : Bool
  worldSize : ℕ
  reduceScalar : ℝ → ℝ
  reduceRows : (Fin K → ℝ) → Fin K → ℝ

/-- The `world_size` local variable of `sinkhorn`: it is `1` unless
`gather_distributed and dist.is_initialized()`. -/
def envWorldSize {K : ℕ} (env : DistEnv K) (gatherDistributed : Bool) : ℕ :=
  if gatherDistributed && env.isInitialized then env.worldSize else 1

/-- One iteration of the `sinkhorn` loop with the distributed environment
explicit: `sum_of_rows` is all-reduced only when `world_size > 1`. -/
def envStep {n K : ℕ} (env : DistEnv K) (ws : ℕ) (B : ℝ)
    (Q : Fin K → Fin n → ℝ) : Fin K → Fin n → ℝ :=
  let sr : Fin K → ℝ := if 1 < ws then env.reduceRows (rowSums Q) else rowSums Q
  let Q1 : Fin K → Fin n → ℝ := fun k i => Q k i / sr k
  fun k i => Q1 k i / colSums Q1 i / B

/-- Embedding of `sinkhorn(out, iterations, epsilon, gather_distributed)`
from `lightly/loss/swav_loss.py` with the `torch.distributed` state made
explicit as a `DistEnv` parameter: `world_size` is read from the
environment only when `gather_distributed` is set, `sum_Q` and
`sum_of_rows` are all-reduced only when `world_size > 1`, and
`B = Q.shape[1] * world_size`. -/
def sinkhornEnv {n K : ℕ} (env : DistEnv K) (gatherDistributed : Bool)
    (out : Fin n → Fin K → ℝ) (iterations : ℕ) (ε : ℝ) : Fin n → Fin K → ℝ :=
  let ws : ℕ := envWorldSize env gatherDistributed
  let Q : Fin K → Fin n → ℝ := fun k i => Real.exp (out i k / ε)
  let sumQlocal : ℝ := ∑ k, ∑ i, Q k i
  let sumQ : ℝ := if 1 < ws then env.reduceScalar sumQlocal else sumQlocal
  let Qn : Fin K → Fin n → ℝ := fun k i => Q k i / sumQ
  let B : ℝ := n * ws
  fun i k => (envStep env ws B)^[iterations] Qn k i * B

/-- One synchronized iteration of the `sinkhorn` loop on `W` devices, with
`dist.all_reduce` modelled as element-wise summation of the per-device
values of `sum_of_rows`; the column sums stay local to each device. -/
def distStep {W n K : ℕ} (B : ℝ) (Qs : Fin W → Fin K → Fin n → ℝ) :
    Fin W → Fin K → Fin n → ℝ :=
  let sr : Fin K → ℝ := fun k => ∑ d, rowSums (Qs d) k
  let Q1 : Fin W → Fin K → Fin n → ℝ := fun d k i => Qs d k i / sr k
  fun d k i => Q1 d k i / colSums (Q1 d) i / B

/-- Embedding of `sinkhorn(·, gather_distributed=True)` run synchronously on
`W` devices, device `d` holding the shard `outs d` of `n` rows:
`dist.all_reduce` is modelled as element-wise summation over devices of
`sum_Q` and `sum_of_rows`, and `B = Q.shape[1] * world_size = n * W` on
every device. -/
def sinkhornDist {W n K : ℕ} (outs : Fin W → Fin n → Fin K → ℝ)
    (iterations : ℕ) (ε : ℝ) : Fin W → Fin n → Fin K → ℝ :=
  let Qs : Fin W → Fin K → Fin n → ℝ := fun d k i => Real.exp (outs d i k / ε)
  let sumQ : ℝ := ∑ d, ∑ k, ∑ i, Qs d k i
  let Qn : Fin W → Fin K → Fin n → ℝ := fun d k i => Qs d k i / sumQ
  let B : ℝ := n * W
  fun d i k => (distStep B)^[iterations] Qn d k i * B

/-- Row-concatenation of the per-device shards: device `d` of `W`
contributes rows `d * n` through `d * n + n - 1` of an `n * W`-row matrix,
the index split being `finProdFinEquiv : Fin W × Fin n ≃ Fin (W * n)`. -/
def concatOuts {W n K : ℕ} (outs : Fin W → Fin n → Fin K → ℝ) :
    Fin (W * n) → Fin K → ℝ :=
  fun j k => outs (finProdFinEquiv.symm j).1 (finProdFinEquiv.symm j).2 k

/-- Embedding of `F.log_softmax(x, dim=1)` applied to one row: the
numerically stabilized torch kernel computes exactly
`x j - log (sum of exp (x k))` in exact arithmetic. -/
def logSoftmax {K : ℕ} (x : Fin K → ℝ) : Fin K → ℝ :=
  fun j => x j - Real.log (∑ k, Real.exp (x k))

/-- Row-wise softmax, as the specification describes it: each entry is its
exponential divided by the sum of the exponentials of the row. -/
def softmax {K : ℕ} (x : Fin K → ℝ) : Fin K → ℝ :=
  fun j => Real.exp (x j) / ∑ k, Real.exp (x k)

/-- Embedding of `SwaVLoss.subloss(z, q)`: the negative of
`torch.mean(torch.sum(q * F.log_softmax(z / temperature, dim=1), dim=1))`,
the mean over the `n` samples being the sum divided by `n`. -/
def subloss {n K : ℕ} (temperature : ℝ) (z q : Fin n → Fin K → ℝ) : ℝ :=
  -((∑ i, ∑ j, q i j * logSoftmax (fun k => z i k / temperature) j) / n)

/-- Embedding of `SwaVLoss.forward(high, low, queue_outputs=None)`: for each
high-resolution crop `i` the codes `q` come from `sinkhorn` on the detached
output (detaching is the identity on values), the sublosses of all other
crops against `q` accumulate from a zero tensor, and the total is divided
by `n_crops - 1` per crop and by the number of high-resolution crops. -/
def forward {n K : ℕ} (temperature ε : ℝ) (iterations : ℕ)
    (high low : List (Fin n → Fin K → ℝ)) : ℝ :=
  let ncrops : ℝ := high.length + low.length
  let loss : ℝ := (List.finRange high.length).foldl (fun loss i =>
    let q := sinkhorn (high.get i) iterations ε
    let sub : ℝ := (List.finRange high.length).foldl (fun acc v =>
      if v ≠ i then acc + subloss temperature (high.get v) q else acc) 0
    let sub : ℝ := low.foldl (fun acc z => acc + subloss temperature z q) sub
    loss + sub / (ncrops - 1)) 0
  loss / high.length

/-- Specification-side description of one sinkhorn iteration: divide each
row of `Q` by that row's sum, then divide each column by that column's sum
and by `B`. -/
def specSinkhornStep {n K : ℕ} (B : ℝ) (Q : Matrix (Fin K) (Fin n) ℝ) :
    Matrix (Fin K) (Fin n) ℝ :=
  let R : Matrix (Fin K) (Fin n) ℝ := Matrix.of fun k i => Q k i / ∑ i2, Q k i2
  Matrix.of fun k i => R k i / (∑ k2, R k2 i) / B

/-- Specification-side description of the whole single-device `sinkhorn`
run: `Q` is the transpose of the entry-wise exponential of `out / ε`,
scaled so that it sums to `1`; `B` is the number of columns of `Q` times
the world size (here `1`); after the iterations, `Q * B` is transposed
back. -/
def specSinkhorn {n K : ℕ} (out : Matrix (Fin n) (Fin K) ℝ) (iterations : ℕ)
    (ε : ℝ) : Matrix (Fin n) (Fin K) ℝ :=
  let Q0 : Matrix (Fin K) (Fin n) ℝ :=
    (Matrix.of fun i k => Real.exp (out i k / ε)).transpose
  let Q1 : Matrix (Fin K) (Fin n) ℝ := (∑ k, ∑ i, Q0 k i)⁻¹ • Q0
  let B : ℝ := (Fintype.card (Fin n) : ℝ) * 1
  (B • (specSinkhornStep B)^[iterations] Q1).transpose

end

/-! Shape-level semantics.  `SwaVLoss.forward` performs no explicit shape
checks of its own; the shapes flow through the underlying torch operations,
which raise on incompatible (non-broadcastable) operands.  The following
interpreter records, for each torch operation used by `forward`, the shape
of its result or the error it raises. -/

/-- Shape of a torch tensor: the list of its dimension sizes (a scalar
tensor has shape `[]`). -/
abbrev Shape := List ℕ

/-- Broadcast of two dimension sizes, torch semantics: the sizes must be
equal, or one of them must be `1`. -/
def bcastDim (a b : ℕ) : Option ℕ :=
  if a = b then some a else if a = 1 then some b else if b = 1 then some a else none

/-- Broadcast of two reversed shapes (trailing dimensions first); a missing
leading dimension is treated as present with size 1. -/
def bcastRev : List ℕ → List ℕ → Option (List ℕ)
  | [], ys => some ys
  | xs, [] => some xs
  | x :: xs, y :: ys => do
      let d ← bcastDim x y
      let rest ← bcastRev xs ys
      pure (d :: rest)

/-- Torch broadcasting of two shapes, aligning trailing dimensions. -/
def broadcastShape (s t : Shape) : Option Shape :=
  (bcastRev s.reverse t.reverse).map List.reverse

/-- Shape of an out-of-place elementwise binary operation such as `q * x`. -/
def shMul (s t : Shape) : Except String Shape :=
  match broadcastShape s t with
  | some u => Except.ok u
  | none => Except.error "the size of a tensor must match the size of the other"

/-- Shape of an in-place elementwise update such as `a += b` or `a /= b`:
the broadcast result must keep the shape of the mutated operand. -/
def shInplace (s t : Shape) : Except String Shape :=
  match broadcastShape s t with
  | some u =>
      if u = s then Except.ok s
      else Except.error "inplace operation would resize the tensor"
  | none => Except.error "the size of a tensor must match the size of the other"

/-- Shape of `F.log_softmax(x, dim=1)`: dimension `1` must exist. -/
def shLogSoftmax1 (s : Shape) : Except String Shape :=
  if 1 < s.length then Except.ok s
  else Except.error "dimension 1 out of range"

/-- Shape of `torch.sum(x, dim=1)` (no keepdim): dimension `1` is removed. -/
def shSumDim1 (s : Shape) : Except String Shape :=
  if 1 < s.length then Except.ok (s.eraseIdx 1)
  else Except.error "dimension 1 out of range"

/-- Shape of `torch.sum(x, dim=d, keepdim=True)`: dimension `d` becomes 1. -/
def shSumDimKeep (d : ℕ) (s : Shape) : Except String Shape :=
  if d < s.length then Except.ok (s.set d 1)
  else Except.error "dimension out of range"

/-- Shape of `Tensor.t()`: defined for at most 2 dimensions, swapping them. -/
def shT (s : Shape) : Except String Shape :=
  match s with
  | [] => Except.ok []
  | [a] => Except.ok [a]
  | [a, b] => Except.ok [b, a]
  | _ => Except.error "t() expects a tensor with at most 2 dimensions"

/-- Value of `Q.shape[1]`: the tensor must have at least 2 dimensions. -/
def shIndex1 (s : Shape) : Except String ℕ :=
  match s with
  | _ :: b :: _ => Except.ok b
  | _ => Except.error "tuple index out of range"

/-- Value of `len(x)` for a tensor: its first dimension. -/
def shLen (s : Shape) : Except String ℕ :=
  match s with
  | [] => Except.error "len of a 0-d tensor"
  | a :: _ => Except.ok a

/-- Shape of the slice `x[:m]`. -/
def shSlice (m : ℕ) (s : Shape) : Except String Shape :=
  match s with
  | [] => Except.error "slicing a 0-d tensor"
  | a :: rest => Except.ok (min m a :: rest)

/-- Shape of `torch.cat((x, y))` along dimension 0: the remaining
dimensions must agree exactly. -/
def shCat (s t : Shape) : Except String Shape :=
  match s, t with
  | a :: s1, b :: t1 =>
      if s1 = t1 then Except.ok ((a + b) :: s1)
      else Except.error "torch.cat sizes of tensors must match"
  | _, _ => Except.error "zero-dimensional tensor cannot be concatenated"

/-- Shape semantics of one iteration of the `sinkhorn` loop:
`Q /= sum_of_rows` with a keepdim sum over `dim=1`, then `Q /= colsums`
with a keepdim sum over `dim=0` (the division `Q /= B` by a python scalar
keeps the shape). -/
def shSinkhornIter (qq : Shape) : Except String Shape := do
  let sr ← shSumDimKeep 1 qq
  let qq ← shInplace qq sr
  let sc ← shSumDimKeep 0 qq
  shInplace qq sc

/-- Shape semantics of `sinkhorn` in a single process: `torch.exp` and the
divisions by the scalars `sum_Q` and `B` keep shapes, `.t()` transposes,
reading `Q.shape[1]` requires at least 2 dimensions, and each loop
iteration renormalizes with keepdim sums. -/
def shSinkhorn (iterations : ℕ) (out : Shape) : Except String Shape := do
  let q ← shT out
  let q ← shInplace q []
  let _ ← shIndex1 q
  let q ← (List.range iterations).foldlM (fun qq _ => shSinkhornIter qq) q
  shT q

/-- Shape semantics of `SwaVLoss.subloss(z, q)`: `z / temperature` keeps
the shape, then `log_softmax(dim=1)`, the broadcasting product with `q`,
`sum(dim=1)` and the full reduction `mean` to a scalar. -/
def shSubloss (z q : Shape) : Except String Shape := do
  let ls ← shLogSoftmax1 z
  let m ← shMul q ls
  let _ ← shSumDim1 m
  pure []

/-- Lookup `queue_outputs[i]`. -/
def shGetQueue (qs : List Shape) (i : ℕ) : Except String Shape :=
  match qs.get? i with
  | some s => Except.ok s
  | none => Except.error "list index out of range"

/-- Lookup `high_resolution_outputs[0]` (used for `new_zeros(1)`). -/
def shHead (l : List Shape) : Except String Shape :=
  match l with
  | [] => Except.error "list index out of range"
  | s :: _ => Except.ok s

/-- Shape semantics of the body of the multi-crop loop of
`SwaVLoss.forward` for the high-resolution crop `i`: the optional queue
concatenation, `sinkhorn`, the optional slice `q[: len(high[i])]`, the
accumulation of the sublosses of all other crops into a `new_zeros(1)`
tensor, and the update `loss += subloss / (n_crops - 1)` (the division by
the python scalar keeps the shape). -/
def shCropStep (iterations : ℕ) (high low : List Shape)
    (queue : Option (List Shape)) (i : Fin high.length) (loss : Shape) :
    Except String Shape := do
  let outs := high.get i
  let outs ← (match queue with
    | none => Except.ok outs
    | some qs => do
        let qi ← shGetQueue qs i.val
        shCat outs qi)
  let q ← shSinkhorn iterations outs
  let q ← (match queue with
    | none => Except.ok q
    | some _ => do
        let m ← shLen (high.get i)
        shSlice m q)
  let sub ← (List.finRange high.length).foldlM (fun acc v =>
      if v = i then Except.ok acc
      else do
        let s ← shSubloss (high.get v) q
        shInplace acc s) [1]
  let sub ← low.foldlM (fun acc z => do
      let s ← shSubloss z q
      shInplace acc s) sub
  shInplace loss sub

/-- Shape semantics of `SwaVLoss.forward`: `high_resolution_outputs[0]`
must exist for `new_zeros(1)`, then the multi-crop loop threads the `loss`
tensor of shape `[1]` through `shCropStep`; the final division by the
python scalar `len(high)` keeps the shape. -/
def shForward (iterations : ℕ) (high low : List Shape)
    (queue : Option (List Shape)) : Except String Shape := do
  let _ ← shHead high
  (List.finRange high.length).foldlM
    (fun loss i => shCropStep iterations high low queue i loss) [1]

/-- Attributes stored on the module by `SwaVLoss.__init__`. -/
structure SwaVLossState where
  temperature : ℝ
  sinkhornIterations : ℕ
  sinkhornEpsilon : ℝ
  sinkhornGatherDistributed : Bool

/-- Embedding of `SwaVLoss.__init__`, with the outcome of
`dist.is_available()` passed explicitly: it raises `ValueError` when
`sinkhorn_gather_distributed` is set but `torch.distributed` is not
available, and otherwise stores the four arguments unchanged. -/
def swavLossInit (distAvailable : Bool) (temperature : ℝ)
    (sinkhornIterations : ℕ) (sinkhornEpsilon : ℝ)
    (sinkhornGatherDistributed : Bool) : Except String SwaVLossState :=
  if sinkhornGatherDistributed && !distAvailable then
    Except.error "sinkhorn_gather_distributed is True but torch.distributed is not available"
  else
    Except.ok ⟨temperature, sinkhornIterations, sinkhornEpsilon,
      sinkhornGatherDistributed⟩

/-- Whether an `Except` computation succeeded. -/
def exceptIsOk {ε α : Type} : Except ε α → Bool
  | Except.ok _ => true
  | Except.error _ => false

/-- An input to `GaussianBlur.__call__`: either a torch `Tensor` or a PIL
`Image`. -/
inductive ImgSample (T P : Type) where
  | tensor : T → ImgSample T P
  | pil : P → ImgSample T P

/-- The `isinstance(sample, Tensor)` test of `GaussianBlur.__call__`. -/
def ImgSample.isTensor {T P : Type} : ImgSample T P → Bool
  | ImgSample.tensor _ => true
  | ImgSample.pil _ => false

/-- The conversion and filtering primitives used by `GaussianBlur.__call__`:
`F.to_pil_image`, `F.to_tensor`, and
`Image.filter(ImageFilter.GaussianBlur(radius=sigma))`. -/
structure BlurOps (T P : Type) where
  toPilImage : T → P
  toTensor : P → T
  gaussianFilter : P → ℚ → P

/-- Embedding of `GaussianBlur.__call__`: the two `np.random` draws are
explicit arguments, `sampledProb` (compared against `self.prob`) and
`sampledSigma` (drawn from the `sigmas` interval and used as the filter
radius); a tensor input is converted to a PIL image and back, a PIL input
is used as is. -/
def gaussianBlurCall {T P : Type} (ops : BlurOps T P) (prob : ℚ)
    (sampledProb sampledSigma : ℚ) (sample : ImgSample T P) : ImgSample T P :=
  let isInputTensor : Bool := sample.isTensor
  let samplePil : P :=
    match sample with
    | ImgSample.tensor t => ops.toPilImage t
    | ImgSample.pil p => p
  let samplePil : P :=
    if sampledProb < prob then ops.gaussianFilter samplePil sampledSigma
    else samplePil
  if isInputTensor then ImgSample.tensor (ops.toTensor samplePil)
  else ImgSample.pil samplePil

/-! Helper lemmas. -/

theorem ok_bind {α β : Type} (a : α) (f : α → Except String β) :
    (Except.ok a : Except String α) >>= f = f a := rfl

theorem foldlM_const_ok {α σ : Type} (f : σ → α → Except String σ) (l : List α)
    (a : σ) (h : ∀ x ∈ l, f a x = Except.ok a) : l.foldlM f a = Except.ok a := by
  induction l with
  | nil => rfl
  | cons x xs ih =>
    rw [List.foldlM_cons, h x (List.mem_cons_self x xs)]
    show xs.foldlM f a = Except.ok a
    exact ih fun y hy => h y (List.mem_cons_of_mem x hy)

theorem foldl_add_eq {α : Type} (f : α → ℝ) (l : List α) (a : ℝ) :
    l.foldl (fun acc x => acc + f x) a = a + (l.map f).sum := by
  induction l generalizing a with
  | nil => simp
  | cons x xs ih => simp [ih, add_assoc]

theorem foldl_add_if_eq {α : Type} (p : α → Prop) [DecidablePred p] (f : α → ℝ)
    (l : List α) (a : ℝ) :
    l.foldl (fun acc x => if p x then acc + f x else acc) a
      = a + (l.map fun x => if p x then f x else 0).sum := by
  induction l generalizing a with
  | nil => simp
  | cons x xs ih => by_cases h : p x <;> simp [h, ih, add_assoc]

theorem list_sum_map_get {α : Type} (f : α → ℝ) (l : List α) :
    (l.map f).sum = ∑ v : Fin l.length, f (l.get v) := by
  conv_lhs => rw [← List.finRange_map_get l]
  rw [List.map_map, Fin.sum_univ_def]
  rfl

theorem sum_fin_mul {W n : ℕ} (f : Fin (W * n) → ℝ) :
    ∑ j, f j = ∑ d : Fin W, ∑ i : Fin n, f (finProdFinEquiv (d, i)) := by
  rw [← Equiv.sum_comp finProdFinEquiv f, Fintype.sum_prod_type]

theorem concatOuts_apply {W n K : ℕ} (outs : Fin W → Fin n → Fin K → ℝ)
    (d : Fin W) (i : Fin n) (k : Fin K) :
    concatOuts outs (finProdFinEquiv (d, i)) k = outs d i k := by
  simp [concatOuts]

theorem bcastDim_self (a : ℕ) : bcastDim a a = some a := by
  simp [bcastDim]

theorem bcastDim_one_right (a : ℕ) : bcastDim a 1 = some a := by
  rcases eq_or_ne a 1 with rfl | h
  · simp [bcastDim]
  · simp [bcastDim, h]

theorem bcastRev_nil_right (xs : List ℕ) : bcastRev xs [] = some xs := by
  cases xs <;> rfl

theorem shInplace_scalar (s : Shape) : shInplace s [] = Except.ok s := by
  unfold shInplace broadcastShape
  rw [List.reverse_nil, bcastRev_nil_right]
  simp

theorem shInplace_rowKeep (a b : ℕ) : shInplace [b, a] [b, 1] = Except.ok [b, a] := by
  simp [shInplace, broadcastShape, bcastRev, bcastDim_one_right, bcastDim_self]

theorem shInplace_colKeep (a b : ℕ) : shInplace [b, a] [1, a] = Except.ok [b, a] := by
  have h1 : bcastDim 1 b = some b := by
    rcases eq_or_ne b 1 with rfl | h
    · simp [bcastDim]
    · simp [bcastDim, h, h.symm]
  simp [shInplace, broadcastShape, bcastRev, bcastDim_one_right, bcastDim_self, h1]

theorem shInplace_one_one : shInplace [1] [1] = Except.ok [1] := by
  simp [shInplace, broadcastShape, bcastRev, bcastDim_self]

theorem shSinkhornIter_two (a b : ℕ) : shSinkhornIter [b, a] = Except.ok [b, a] := by
  have h1 : shSumDimKeep 1 [b, a] = Except.ok [b, 1] := by simp [shSumDimKeep]
  have h2 : shSumDimKeep 0 [b, a] = Except.ok [1, a] := by simp [shSumDimKeep]
  unfold shSinkhornIter
  simp only [h1, ok_bind, shInplace_rowKeep, h2, shInplace_colKeep]

theorem shSinkhorn_two (it a b : ℕ) : shSinkhorn it [a, b] = Except.ok [a, b] := by
  have hT : shT [a, b] = Except.ok [b, a] := rfl
  have hT2 : shT [b, a] = Except.ok [a, b] := rfl
  have hI : shIndex1 [b, a] = Except.ok a := rfl
  have hloop : (List.range it).foldlM (fun qq _ => shSinkhornIter qq) [b, a]
      = Except.ok [b, a] :=
    foldlM_const_ok _ _ _ (fun x _ => shSinkhornIter_two a b)
  unfold shSinkhorn
  simp only [hT, ok_bind, shInplace_scalar, hI, hloop, hT2]

theorem shSubloss_ok (a b : ℕ) : shSubloss [a, b] [a, b] = Except.ok [] := by
  have h1 : shLogSoftmax1 [a, b] = Except.ok [a, b] := by simp [shLogSoftmax1]
  have h2 : shMul [a, b] [a, b] = Except.ok [a, b] := by
    simp [shMul, broadcastShape, bcastRev, bcastDim_self]
  have h3 : shSumDim1 [a, b] = Except.ok [a] := by simp [shSumDim1, List.eraseIdx]
  unfold shSubloss
  simp only [h1, ok_bind, h2, h3]
  rfl

theorem shGetQueue_replicate (s : Shape) (H j : ℕ) (h : j < H) :
    shGetQueue (List.replicate H s) j = Except.ok s := by
  unfold shGetQueue
  rw [List.get?_eq_getElem?]
  simp [List.getElem?_replicate, h]

theorem shCat_samecols (a b : ℕ) (t : List ℕ) :
    shCat (a :: t) (b :: t) = Except.ok ((a + b) :: t) := by
  simp [shCat]

theorem shSlice_left (m r : ℕ) (t : List ℕ) :
    shSlice m ((m + r) :: t) = Except.ok (m :: t) := by
  simp [shSlice, Nat.min_eq_left (Nat.le_add_right m r)]

theorem shHead_replicate (s : Shape) (H : ℕ) (h : 0 < H) :
    shHead (List.replicate H s) = Except.ok s := by
  cases H with
  | zero => omega
  | succ H1 => simp [List.replicate_succ, shHead]

theorem shLowFold_ok (L n2 K2 : ℕ) :
    (List.replicate L ([n2, K2] : Shape)).foldlM
      (fun acc z => do
        let s ← shSubloss z [n2, K2]
        shInplace acc s) [1] = Except.ok [1] := by
  apply foldlM_const_ok
  intro z hz
  have hzeq : z = [n2, K2] := List.eq_of_mem_replicate hz
  subst hzeq
  simp only [shSubloss_ok, ok_bind, shInplace_scalar]

theorem shHighFold_ok (H n2 K2 : ℕ)
    (i : Fin (List.replicate H ([n2, K2] : Shape)).length) :
    (List.finRange (List.replicate H ([n2, K2] : Shape)).length).foldlM
      (fun acc v =>
        if v = i then Except.ok acc
        else do
          let s ← shSubloss ((List.replicate H ([n2, K2] : Shape)).get v) [n2, K2]
          shInplace acc s) [1] = Except.ok [1] := by
  apply foldlM_const_ok
  intro v _
  by_cases hv : v = i
  · simp [hv]
  · have hget : (List.replicate H ([n2, K2] : Shape)).get v = [n2, K2] :=
      List.get_replicate _ _
    simp only [if_neg hv, hget, shSubloss_ok, ok_bind, shInplace_scalar]

theorem shCropStep_none_ok (it H L n2 K2 : ℕ)
    (i : Fin (List.replicate H ([n2, K2] : Shape)).length) :
    shCropStep it (List.replicate H [n2, K2]) (List.replicate L [n2, K2])
      none i [1] = Except.ok [1] := by
  have hget : (List.replicate H ([n2, K2] : Shape)).get i = [n2, K2] :=
    List.get_replicate _ _
  unfold shCropStep
  simp only [hget, shSinkhorn_two, ok_bind, shHighFold_ok, shLowFold_ok,
    shInplace_one_one]

theorem shCropStep_some_ok (it H L n2 K2 m2 : ℕ)
    (i : Fin (List.replicate H ([n2, K2] : Shape)).length) :
    shCropStep it (List.replicate H [n2, K2]) (List.replicate L [n2, K2])
      (some (List.replicate H [m2, K2])) i [1] = Except.ok [1] := by
  have hiH : i.val < H := by simpa using i.isLt
  have hget : (List.replicate H ([n2, K2] : Shape)).get i = [n2, K2] :=
    List.get_replicate _ _
  have hlen : shLen ([n2, K2] : Shape) = Except.ok n2 := rfl
  unfold shCropStep
  simp only [hget, shGetQueue_replicate _ _ _ hiH, ok_bind, shCat_samecols,
    shSinkhorn_two, hlen, shSlice_left, shHighFold_ok, shLowFold_ok,
    shInplace_one_one]

theorem sinkhornStep_pos {n K : ℕ} (hn : 0 < n) (hK : 0 < K) {B : ℝ}
    (hB : 0 < B) (Q : Fin K → Fin n → ℝ) (hQ : ∀ k i, 0 < Q k i) :
    ∀ k i, 0 < sinkhornStep B Q k i := by
  intro k i
  have hrow : ∀ k2, 0 < rowSums Q k2 := fun k2 =>
    Finset.sum_pos (fun i2 _ => hQ k2 i2) ⟨⟨0, hn⟩, Finset.mem_univ _⟩
  have hQ1 : ∀ k2 i2, 0 < Q k2 i2 / rowSums Q k2 := fun k2 i2 =>
    div_pos (hQ k2 i2) (hrow k2)
  have hcol : 0 < colSums (fun k2 i2 => Q k2 i2 / rowSums Q k2) i :=
    Finset.sum_pos (fun k2 _ => hQ1 k2 i) ⟨⟨0, hK⟩, Finset.mem_univ _⟩
  exact div_pos (div_pos (hQ1 k i) hcol) hB

theorem sinkhornIter_pos {n K : ℕ} (hn : 0 < n) (hK : 0 < K) {B : ℝ}
    (hB : 0 < B) {Q : Fin K → Fin n → ℝ} (hQ : ∀ k i, 0 < Q k i) :
    ∀ (m : ℕ) (k : Fin K) (i : Fin n), 0 < (sinkhornStep B)^[m] Q k i := by
  intro m
  induction m with
  | zero => exact hQ
  | succ m ih =>
    intro k i
    rw [Function.iterate_succ_apply']
    exact sinkhornStep_pos hn hK hB _ ih k i

theorem distStep_corr {W n K : ℕ} (B : ℝ) (Qd : Fin W → Fin K → Fin n → ℝ)
    (Qc : Fin K → Fin (W * n) → ℝ)
    (h : ∀ d k i, Qd d k i = Qc k (finProdFinEquiv (d, i))) :
    ∀ d k i, distStep B Qd d k i = sinkhornStep B Qc k (finProdFinEquiv (d, i)) := by
  have hrow : ∀ k, (∑ d2, rowSums (Qd d2) k) = rowSums Qc k := by
    intro k
    unfold rowSums
    conv_rhs => rw [sum_fin_mul (f := fun j => Qc k j)]
    exact Finset.sum_congr rfl fun d2 _ =>
      Finset.sum_congr rfl fun i2 _ => h d2 k i2
  intro d k i
  show (Qd d k i / (∑ d2, rowSums (Qd d2) k)) /
        (∑ k2, Qd d k2 i / (∑ d2, rowSums (Qd d2) k2)) / B
      = (Qc k (finProdFinEquiv (d, i)) / rowSums Qc k) /
        (∑ k2, Qc k2 (finProdFinEquiv (d, i)) / rowSums Qc k2) / B
  congr 1
  congr 1
  · rw [hrow, h]
  · exact Finset.sum_congr rfl fun k2 _ => by rw [hrow, h]

theorem distIter_corr {W n K : ℕ} (B : ℝ) (Qd : Fin W → Fin K → Fin n → ℝ)
    (Qc : Fin K → Fin (W * n) → ℝ)
    (h : ∀ d k i, Qd d k i = Qc k (finProdFinEquiv (d, i))) (m : ℕ) :
    ∀ d k i, (distStep B)^[m] Qd d k i
      = (sinkhornStep B)^[m] Qc k (finProdFinEquiv (d, i)) := by
  induction m with
  | zero => exact h
  | succ m ih =>
    intro d k i
    rw [Function.iterate_succ_apply', Function.iterate_succ_apply']
    exact distStep_corr B _ _ ih d k i

/-! Claim theorems. -/

/-- C9: `SwaVLoss.__init__` fails exactly when `sinkhorn_gather_distributed`
is true and `torch.distributed` is unavailable; in every other case it
succeeds and stores `temperature`, `sinkhorn_iterations`,
`sinkhorn_epsilon` and `sinkhorn_gather_distributed` unchanged. -/
theorem swavLossInit_spec (distAvailable : Bool) (t : ℝ) (it : ℕ) (ε : ℝ)
    (g : Bool) :
    (exceptIsOk (swavLossInit distAvailable t it ε g) = false ↔
      g = true ∧ distAvailable = false) ∧
    (∀ s, swavLossInit distAvailable t it ε g = Except.ok s →
      s.temperature = t ∧ s.sinkhornIterations = it ∧ s.sinkhornEpsilon = ε ∧
        s.sinkhornGatherDistributed = g) := by
  constructor
  · cases g <;> cases distAvailable <;> simp [swavLossInit, exceptIsOk]
  · intro s hs
    cases g <;> cases distAvailable <;> simp [swavLossInit] at hs <;>
      (subst hs; exact ⟨rfl, rfl, rfl, rfl⟩)

/-- Witness for C9 at a concrete input: the stored attributes of a
successful initialization are the constructor arguments. -/
theorem swavLossInit_spec_witness :
    (⟨1, 3, 1, true⟩ : SwaVLossState).temperature = 1 ∧
    (⟨1, 3, 1, true⟩ : SwaVLossState).sinkhornIterations = 3 ∧
    (⟨1, 3, 1, true⟩ : SwaVLossState).sinkhornEpsilon = 1 ∧
    (⟨1, 3, 1, true⟩ : SwaVLossState).sinkhornGatherDistributed = true :=
  (swavLossInit_spec true 1 3 1 true).2 ⟨1, 3, 1, true⟩ rfl

/-- C10: `GaussianBlur.__call__` returns a tensor exactly when the input is
a tensor (and a PIL image exactly when the input is one), and when the
sampled probability does not trigger the blur a PIL input is returned
unchanged. -/
theorem gaussianBlurCall_type_preservation {T P : Type} (ops : BlurOps T P)
    (prob sampledProb sampledSigma : ℚ) (sample : ImgSample T P) :
    ((gaussianBlurCall ops prob sampledProb sampledSigma sample).isTensor
        = sample.isTensor) ∧
    (prob ≤ sampledProb → ∀ p : P, sample = ImgSample.pil p →
      gaussianBlurCall ops prob sampledProb sampledSigma sample
        = ImgSample.pil p) := by
  constructor
  · cases sample <;> by_cases h : sampledProb < prob <;>
      simp [gaussianBlurCall, ImgSample.isTensor, h]
  · intro hle p hp
    subst hp
    simp [gaussianBlurCall, ImgSample.isTensor, not_lt.mpr hle]

/-- Witness for C10 at a concrete input: with threshold 1/2 and sampled
probability 3/4 a PIL input is returned unchanged. -/
theorem gaussianBlurCall_type_preservation_witness :
    ((1 : ℚ)/2 ≤ 3/4) ∧
    gaussianBlurCall (T := ℕ) (P := ℕ)
        ⟨fun t => t, fun p => p, fun p _ => p + 1⟩ (1/2) (3/4) 2
        (ImgSample.pil 5) = ImgSample.pil 5 :=
  ⟨by norm_num,
    (gaussianBlurCall_type_preservation ⟨fun t => t, fun p => p, fun p _ => p + 1⟩
        (1/2) (3/4) 2 (ImgSample.pil 5)).2 (by norm_num) 5 rfl⟩

/-- C4: `SwaVLoss.subloss(z, q)` is the negative mean over samples of the
sum over prototypes of `q` times the logarithm of the row-wise softmax of
`z / temperature`. -/
theorem subloss_spec {n K : ℕ} (temperature : ℝ) (z q : Fin n → Fin K → ℝ) :
    subloss temperature z q =
      -((∑ i, ∑ j, q i j *
          Real.log (softmax (fun k => z i k / temperature) j)) / n) := by
  unfold subloss
  congr 2
  apply Finset.sum_congr rfl
  intro i _
  apply Finset.sum_congr rfl
  intro j _
  congr 1
  unfold logSoftmax softmax
  rw [Real.log_div (Real.exp_ne_zero _)
    (Finset.sum_pos (fun k _ => Real.exp_pos _) ⟨j, Finset.mem_univ j⟩).ne',
    Real.log_exp]

/-- C7: with `gather_distributed=False` the value of `sinkhorn` does not
depend on the distributed environment at all: it equals the pure
single-device routine (in which `world_size` is `1` and no `all_reduce`
occurs), so any two runs on equal inputs agree whatever the distributed
state is. -/
theorem sinkhorn_single_device_deterministic {n K : ℕ} (env1 env2 : DistEnv K)
    (out : Fin n → Fin K → ℝ) (iterations : ℕ) (ε : ℝ) :
    sinkhornEnv env1 false out iterations ε = sinkhorn out iterations ε ∧
    sinkhornEnv env1 false out iterations ε
      = sinkhornEnv env2 false out iterations ε := by
  have key : ∀ env : DistEnv K,
      sinkhornEnv env false out iterations ε = sinkhorn out iterations ε := by
    intro env
    have hws : envWorldSize env false = 1 := by simp [envWorldSize]
    have hstep : envStep (n := n) (K := K) env 1 = sinkhornStep := by
      funext B Q k i
      simp [envStep, sinkhornStep]
    funext i k
    simp [sinkhornEnv, sinkhorn, hws, hstep]
  exact ⟨key env1, (key env1).trans (key env2).symm⟩

/-- C1: distributed consistency of `sinkhorn`. For any world size `W ≥ 1`
and any partition of a batch into `W` equal-size shards, running the
distributed `sinkhorn` (with `all_reduce` modelled as element-wise
summation over devices) returns on device `d` exactly the rows of shard
`d` of the codes a single-device run returns on the row-concatenation of
the shards, with the same iterations and epsilon. -/
theorem sinkhorn_distributed_consistency {W n K : ℕ} (hW : 1 ≤ W)
    (outs : Fin W → Fin n → Fin K → ℝ) (iterations : ℕ) (ε : ℝ)
    (d : Fin W) (i : Fin n) (k : Fin K) :
    sinkhornDist outs iterations ε d i k
      = sinkhorn (concatOuts outs) iterations ε (finProdFinEquiv (d, i)) k := by
  have hS : (∑ k2, ∑ j, Real.exp (concatOuts outs j k2 / ε))
      = ∑ d2, ∑ k2, ∑ i2, Real.exp (outs d2 i2 k2 / ε) := by
    calc (∑ k2, ∑ j, Real.exp (concatOuts outs j k2 / ε))
        = ∑ k2, ∑ d2, ∑ i2,
            Real.exp (concatOuts outs (finProdFinEquiv (d2, i2)) k2 / ε) :=
          Finset.sum_congr rfl fun k2 _ => sum_fin_mul _
      _ = ∑ k2, ∑ d2, ∑ i2, Real.exp (outs d2 i2 k2 / ε) := by
          simp only [concatOuts_apply]
      _ = ∑ d2, ∑ k2, ∑ i2, Real.exp (outs d2 i2 k2 / ε) := Finset.sum_comm
  have hB : ((W * n : ℕ) : ℝ) = (n : ℝ) * (W : ℝ) := by push_cast; ring
  show (distStep ((n : ℝ) * (W : ℝ)))^[iterations]
      (fun d2 k2 i2 => Real.exp (outs d2 i2 k2 / ε) /
        (∑ d3, ∑ k3, ∑ i3, Real.exp (outs d3 i3 k3 / ε))) d k i
        * ((n : ℝ) * (W : ℝ))
    = (sinkhornStep ((W * n : ℕ) : ℝ))^[iterations]
      (fun k2 j2 => Real.exp (concatOuts outs j2 k2 / ε) /
        (∑ k3, ∑ j3, Real.exp (concatOuts outs j3 k3 / ε))) k
        (finProdFinEquiv (d, i)) * ((W * n : ℕ) : ℝ)
  rw [hB, hS]
  have hbase : ∀ (d2 : Fin W) (k2 : Fin K) (i2 : Fin n),
      Real.exp (outs d2 i2 k2 / ε) /
        (∑ d3, ∑ k3, ∑ i3, Real.exp (outs d3 i3 k3 / ε))
      = Real.exp (concatOuts outs (finProdFinEquiv (d2, i2)) k2 / ε) /
          (∑ d3, ∑ k3, ∑ i3, Real.exp (outs d3 i3 k3 / ε)) := by
    intro d2 k2 i2
    rw [concatOuts_apply]
  rw [distIter_corr ((n : ℝ) * (W : ℝ))
      (fun d2 k2 i2 => Real.exp (outs d2 i2 k2 / ε) /
        (∑ d3, ∑ k3, ∑ i3, Real.exp (outs d3 i3 k3 / ε)))
      (fun k2 j2 => Real.exp (concatOuts outs j2 k2 / ε) /
        (∑ d3, ∑ k3, ∑ i3, Real.exp (outs d3 i3 k3 / ε)))
      hbase iterations d k i]

/-- Witness for C1 at a concrete input: one device, one row, one
prototype, zero iterations. -/
theorem sinkhorn_distributed_consistency_witness :
    1 ≤ 1 ∧
    sinkhornDist (W := 1) (n := 1) (K := 1) (fun _ _ _ => (0 : ℝ)) 0 1 0 0 0
      = sinkhorn (concatOuts (W := 1) (n := 1) (K := 1) (fun _ _ _ => (0 : ℝ)))
          0 1 (finProdFinEquiv ((0 : Fin 1), (0 : Fin 1))) 0 :=
  ⟨le_refl 1,
    sinkhorn_distributed_consistency (le_refl 1) (fun _ _ _ => (0 : ℝ)) 0 1 0 0 0⟩

/-- C2: the single-device `sinkhorn` computes exactly the sequence the
specification describes: transpose of `exp(out / ε)`, division by the
total sum, `iterations` iterations of row normalization followed by
column normalization and division by `B` (the number of columns of `Q`
times the world size), and finally `(Q * B)` transposed back. -/
theorem sinkhorn_steps_spec {n K : ℕ} (out : Fin n → Fin K → ℝ)
    (iterations : ℕ) (ε : ℝ) (hε : 0 < ε) :
    sinkhorn out iterations ε =
      fun i k => specSinkhorn (Matrix.of out) iterations ε i k := by
  have hstep : specSinkhornStep (n := n) (K := K) = sinkhornStep := by
    funext B Q k i
    simp [specSinkhornStep, sinkhornStep, rowSums, colSums]
  have hinit : (fun (k : Fin K) (i : Fin n) => Real.exp (out i k / ε) /
        (∑ k2, ∑ i2, Real.exp (out i2 k2 / ε)))
      = ((∑ k2, ∑ i2, Real.exp (out i2 k2 / ε))⁻¹ •
          (Matrix.of fun i k => Real.exp (out i k / ε)).transpose :
          Matrix (Fin K) (Fin n) ℝ) := by
    funext k i
    simp [Matrix.smul_apply, Matrix.transpose_apply, Matrix.of_apply,
      smul_eq_mul, inv_mul_eq_div]
  funext i k
  simp only [sinkhorn, specSinkhorn, hstep, Matrix.transpose_apply,
    Matrix.smul_apply, smul_eq_mul, Matrix.of_apply, Fintype.card_fin, mul_one]
  rw [← hinit]
  exact mul_comm _ _

/-- Witness for C2 at a concrete input: a one-by-one zero matrix with zero
iterations and epsilon one. -/
theorem sinkhorn_steps_spec_witness :
    (0 : ℝ) < 1 ∧
    sinkhorn (n := 1) (K := 1) (fun _ _ => (0 : ℝ)) 0 1 =
      fun i k => specSinkhorn (Matrix.of fun _ _ => (0 : ℝ)) 0 1 i k :=
  ⟨one_pos, sinkhorn_steps_spec (fun _ _ => (0 : ℝ)) 0 1 one_pos⟩

/-- C8 counterexample: for the degenerate input matrix with one sample and
zero prototypes (finite entries, `ε = 1/20 > 0`, `iterations = 3 ≥ 1`),
the row of the returned matrix sums to `0`, not `1`, so the claim fails as
stated for that input. -/
theorem sinkhorn_prob_rows_cex :
    ¬ ((∀ (i : Fin 1) (k : Fin 0),
          0 ≤ sinkhorn (fun _ j => (j.elim0 : ℝ)) 3 (1/20) i k) ∧
       (∀ i : Fin 1,
          ∑ k, sinkhorn (fun _ j => (j.elim0 : ℝ)) 3 (1/20) i k = 1)) := by
  rintro ⟨-, h⟩
  have h0 := h 0
  simp at h0

/-- C8 (amended to require at least one prototype): in single-device mode,
for every input matrix with at least one prototype column, `ε > 0` and
`iterations ≥ 1`, every entry of the returned codes is nonnegative and
every row sums to `1`. -/
theorem sinkhorn_entries_prob {n K : ℕ} (out : Fin n → Fin K → ℝ)
    (iterations : ℕ) (ε : ℝ) (hK : 0 < K) (hε : 0 < ε) (hit : 1 ≤ iterations) :
    (∀ (i : Fin n) (k : Fin K), 0 ≤ sinkhorn out iterations ε i k) ∧
    (∀ i : Fin n, ∑ k, sinkhorn out iterations ε i k = 1) := by
  constructor
  · intro i k
    have hn : 0 < n := i.pos
    have hB : (0 : ℝ) < n := by exact_mod_cast hn
    have hS : 0 < ∑ k2, ∑ i2, Real.exp (out i2 k2 / ε) :=
      Finset.sum_pos
        (fun k2 _ => Finset.sum_pos (fun i2 _ => Real.exp_pos _)
          ⟨⟨0, hn⟩, Finset.mem_univ _⟩)
        ⟨⟨0, hK⟩, Finset.mem_univ _⟩
    have hQ0 : ∀ (k2 : Fin K) (i2 : Fin n),
        0 < Real.exp (out i2 k2 / ε) / (∑ k3, ∑ i3, Real.exp (out i3 k3 / ε)) :=
      fun k2 i2 => div_pos (Real.exp_pos _) hS
    show 0 ≤ (sinkhornStep (n : ℝ))^[iterations]
        (fun k2 i2 => Real.exp (out i2 k2 / ε) /
          (∑ k3, ∑ i3, Real.exp (out i3 k3 / ε))) k i * (n : ℝ)
    exact le_of_lt (mul_pos (sinkhornIter_pos hn hK hB hQ0 iterations k i) hB)
  · intro i
    have hn : 0 < n := i.pos
    have hB : (0 : ℝ) < n := by exact_mod_cast hn
    have hS : 0 < ∑ k2, ∑ i2, Real.exp (out i2 k2 / ε) :=
      Finset.sum_pos
        (fun k2 _ => Finset.sum_pos (fun i2 _ => Real.exp_pos _)
          ⟨⟨0, hn⟩, Finset.mem_univ _⟩)
        ⟨⟨0, hK⟩, Finset.mem_univ _⟩
    have hQ0 : ∀ (k2 : Fin K) (i2 : Fin n),
        0 < Real.exp (out i2 k2 / ε) / (∑ k3, ∑ i3, Real.exp (out i3 k3 / ε)) :=
      fun k2 i2 => div_pos (Real.exp_pos _) hS
    obtain ⟨m, rfl⟩ : ∃ m, iterations = m + 1 :=
      ⟨iterations - 1, (Nat.succ_pred_eq_of_pos hit).symm⟩
    show (∑ k, (sinkhornStep (n : ℝ))^[m + 1]
        (fun k2 i2 => Real.exp (out i2 k2 / ε) /
          (∑ k3, ∑ i3, Real.exp (out i3 k3 / ε))) k i * (n : ℝ)) = 1
    have hQm : ∀ (k2 : Fin K) (i2 : Fin n),
        0 < (sinkhornStep (n : ℝ))^[m]
          (fun k2 i2 => Real.exp (out i2 k2 / ε) /
            (∑ k3, ∑ i3, Real.exp (out i3 k3 / ε))) k2 i2 :=
      sinkhornIter_pos hn hK hB hQ0 m
    set Qm : Fin K → Fin n → ℝ := (sinkhornStep (n : ℝ))^[m]
        (fun k2 i2 => Real.exp (out i2 k2 / ε) /
          (∑ k3, ∑ i3, Real.exp (out i3 k3 / ε))) with hQmdef
    have hrow : ∀ k2, 0 < rowSums Qm k2 := fun k2 =>
      Finset.sum_pos (fun i2 _ => hQm k2 i2) ⟨⟨0, hn⟩, Finset.mem_univ _⟩
    have hQ1 : ∀ k2 i2, 0 < Qm k2 i2 / rowSums Qm k2 := fun k2 i2 =>
      div_pos (hQm k2 i2) (hrow k2)
    have hcol : 0 < colSums (fun k2 i2 => Qm k2 i2 / rowSums Qm k2) i :=
      Finset.sum_pos (fun k2 _ => hQ1 k2 i) ⟨⟨0, hK⟩, Finset.mem_univ _⟩
    calc (∑ k, (sinkhornStep (n : ℝ))^[m + 1]
          (fun k2 i2 => Real.exp (out i2 k2 / ε) /
            (∑ k3, ∑ i3, Real.exp (out i3 k3 / ε))) k i * (n : ℝ))
        = ∑ k, (Qm k i / rowSums Qm k) /
            colSums (fun k2 i2 => Qm k2 i2 / rowSums Qm k2) i / (n : ℝ)
              * (n : ℝ) := by
          apply Finset.sum_congr rfl
          intro k _
          rw [Function.iterate_succ_apply', ← hQmdef]
          rfl
      _ = ∑ k, (Qm k i / rowSums Qm k) /
            colSums (fun k2 i2 => Qm k2 i2 / rowSums Qm k2) i := by
          apply Finset.sum_congr rfl
          intro k _
          rw [div_mul_cancel₀ _ hB.ne']
      _ = (∑ k, Qm k i / rowSums Qm k) /
            colSums (fun k2 i2 => Qm k2 i2 / rowSums Qm k2) i :=
          (Finset.sum_div _ _ _).symm
      _ = 1 := div_self hcol.ne'

/-- Witness for the amended C8 at a concrete input: a one-by-one zero
matrix, one iteration, epsilon one. -/
theorem sinkhorn_entries_prob_witness :
    0 < 1 ∧ (0 : ℝ) < 1 ∧ 1 ≤ 1 ∧
    ((∀ (i : Fin 1) (k : Fin 1),
        0 ≤ sinkhorn (n := 1) (K := 1) (fun _ _ => (0 : ℝ)) 1 1 i k) ∧
     (∀ i : Fin 1,
        ∑ k, sinkhorn (n := 1) (K := 1) (fun _ _ => (0 : ℝ)) 1 1 i k = 1)) :=
  ⟨Nat.one_pos, one_pos, le_refl 1,
    sinkhorn_entries_prob (fun _ _ => (0 : ℝ)) 1 1 Nat.one_pos one_pos (le_refl 1)⟩

/-- C5 counterexample: `SwaVLoss.forward` performs no explicit shape check.
With two high-resolution outputs of shape `(2, 2)` and one low-resolution
output of shape `(2, 1)` — whose prototype dimension `1` differs from the
`2` prototypes of the codes — the forward pass does not raise: the
mismatched product broadcasts and a loss value of shape `[1]` is computed. -/
theorem forward_shape_check_cex :
    shForward 3 [[2, 2], [2, 2]] [[2, 1]] none = Except.ok [1] := rfl

/-- C5 (amended): the forward pass contains no ad hoc shape checks of its
own; a shape inconsistency raises only when an underlying tensor operation
rejects it (as for a low-resolution output with 3 prototypes against codes
with 2, where the elementwise product is not broadcastable), while a
broadcastable inconsistency (prototype dimension 1 against 2) proceeds and
computes a loss value. -/
theorem forward_shape_check_amended :
    shForward 3 [[2, 2], [2, 2]] [[2, 3]] none
        = Except.error "the size of a tensor must match the size of the other" ∧
    shForward 3 [[2, 2], [2, 2]] [[2, 1]] none = Except.ok [1] :=
  ⟨rfl, rfl⟩

/-- C6: for every shape-consistent input (a non-empty list of `H`
high-resolution outputs of shape `(n, K)`, `L` low-resolution outputs of
shape `(n, K)` with `H + L ≥ 2`, and optionally a queue of `H` outputs of
shape `(m, K)`), `SwaVLoss.forward` returns a one-element tensor of shape
`[1]`. -/
theorem forward_scalar_shape (iterations H L n2 K2 m2 : ℕ)
    (queue : Option (List Shape)) (hH : 0 < H) (hcrops : 2 ≤ H + L)
    (hq : queue = none ∨ queue = some (List.replicate H [m2, K2])) :
    shForward iterations (List.replicate H [n2, K2])
      (List.replicate L [n2, K2]) queue = Except.ok [1] := by
  unfold shForward
  simp only [shHead_replicate _ _ hH, ok_bind]
  apply foldlM_const_ok
  intro i _
  rcases hq with rfl | rfl
  · exact shCropStep_none_ok iterations H L n2 K2 i
  · exact shCropStep_some_ok iterations H L n2 K2 m2 i

/-- Witness for C6 at a concrete input: two high-resolution crops of shape
`(1, 1)`, no low-resolution crops, no queue, three sinkhorn iterations. -/
theorem forward_scalar_shape_witness :
    0 < 2 ∧ 2 ≤ 2 + 0 ∧
    shForward 3 (List.replicate 2 [1, 1]) (List.replicate 0 [1, 1]) none
      = Except.ok [1] :=
  ⟨by decide, by decide,
    forward_scalar_shape 3 2 0 1 1 0 none (by decide) (by decide) (Or.inl rfl)⟩

/-- C3: with `queue_outputs = None`, `SwaVLoss.forward` returns `1/H` times
the sum over the high-resolution crops `i` of `1/(H+L-1)` times the sum of
the sublosses of every other crop against the sinkhorn codes of crop `i`. -/
theorem forward_multicrop {n K : ℕ} (temperature ε : ℝ) (iterations : ℕ)
    (high low : List (Fin n → Fin K → ℝ)) (hH : 0 < high.length)
    (hcrops : 2 ≤ high.length + low.length) :
    forward temperature ε iterations high low =
      (1 / (high.length : ℝ)) *
        ∑ i : Fin high.length,
          (1 / ((high.length : ℝ) + (low.length : ℝ) - 1)) *
            ((∑ v : Fin high.length,
                if v ≠ i then
                  subloss temperature (high.get v)
                    (sinkhorn (high.get i) iterations ε)
                else 0) +
             ∑ v : Fin low.length,
               subloss temperature (low.get v)
                 (sinkhorn (high.get i) iterations ε)) := by
  have hsummand : ∀ i : Fin high.length,
      (low.foldl (fun acc z =>
          acc + subloss temperature z (sinkhorn (high.get i) iterations ε))
        ((List.finRange high.length).foldl (fun acc v =>
          if v ≠ i then
            acc + subloss temperature (high.get v)
              (sinkhorn (high.get i) iterations ε)
          else acc) 0)) / ((high.length : ℝ) + (low.length : ℝ) - 1)
      = (1 / ((high.length : ℝ) + (low.length : ℝ) - 1)) *
          ((∑ v : Fin high.length,
              if v ≠ i then
                subloss temperature (high.get v)
                  (sinkhorn (high.get i) iterations ε)
              else 0) +
           ∑ v : Fin low.length,
             subloss temperature (low.get v)
               (sinkhorn (high.get i) iterations ε)) := by
    intro i
    rw [foldl_add_if_eq (fun v => v ≠ i)
      (fun v => subloss temperature (high.get v)
        (sinkhorn (high.get i) iterations ε)),
      ← Fin.sum_univ_def, foldl_add_eq
        (fun z => subloss temperature z (sinkhorn (high.get i) iterations ε)),
      list_sum_map_get, zero_add, one_div_mul_eq_div]
  simp only [forward]
  rw [foldl_add_eq (fun i : Fin high.length =>
      (low.foldl (fun acc z =>
          acc + subloss temperature z (sinkhorn (high.get i) iterations ε))
        ((List.finRange high.length).foldl (fun acc v =>
          if v ≠ i then
            acc + subloss temperature (high.get v)
              (sinkhorn (high.get i) iterations ε)
          else acc) 0)) / ((high.length : ℝ) + (low.length : ℝ) - 1)),
    ← Fin.sum_univ_def, zero_add]
  simp only [hsummand]
  rw [one_div_mul_eq_div]

/-- Witness for C3 at a concrete input: two high-resolution one-by-one zero
outputs and no low-resolution outputs. -/
theorem forward_multicrop_witness :
    0 < ([fun _ _ => (0 : ℝ), fun _ _ => (0 : ℝ)] :
        List (Fin 1 → Fin 1 → ℝ)).length ∧
    2 ≤ ([fun _ _ => (0 : ℝ), fun _ _ => (0 : ℝ)] :
        List (Fin 1 → Fin 1 → ℝ)).length +
      ([] : List (Fin 1 → Fin 1 → ℝ)).length ∧
    forward 1 1 0 ([fun _ _ => (0 : ℝ), fun _ _ => (0 : ℝ)] :
        List (Fin 1 → Fin 1 → ℝ)) [] =
      (1 / (([fun _ _ => (0 : ℝ), fun _ _ => (0 : ℝ)] :
          List (Fin 1 → Fin 1 → ℝ)).length : ℝ)) *
        ∑ i : Fin ([fun _ _ => (0 : ℝ), fun _ _ => (0 : ℝ)] :
            List (Fin 1 → Fin 1 → ℝ)).length,
          (1 / ((([fun _ _ => (0 : ℝ), fun _ _ => (0 : ℝ)] :
              List (Fin 1 → Fin 1 → ℝ)).length : ℝ) +
            (([] : List (Fin 1 → Fin 1 → ℝ)).length : ℝ) - 1)) *
            ((∑ v : Fin ([fun _ _ => (0 : ℝ), fun _ _ => (0 : ℝ)] :
                List (Fin 1 → Fin 1 → ℝ)).length,
                if v ≠ i then
                  subloss 1 (([fun _ _ => (0 : ℝ), fun _ _ => (0 : ℝ)] :
                    List (Fin 1 → Fin 1 → ℝ)).get v)
                    (sinkhorn (([fun _ _ => (0 : ℝ), fun _ _ => (0 : ℝ)] :
                      List (Fin 1 → Fin 1 → ℝ)).get i) 0 1)
                else 0) +
             ∑ v : Fin ([] : List (Fin 1 → Fin 1 → ℝ)).length,
               subloss 1 (([] : List (Fin 1 → Fin 1 → ℝ)).get v)
                 (sinkhorn (([fun _ _ => (0 : ℝ), fun _ _ => (0 : ℝ)] :
                   List (Fin 1 → Fin 1 → ℝ)).get i) 0 1)) :=
  ⟨by decide, by decide,
    forward_multicrop 1 1 0
      ([fun _ _ => (0 : ℝ), fun _ _ => (0 : ℝ)] : List (Fin 1 → Fin 1 → ℝ))
      [] (by decide) (by decide)⟩

end Lightly
